import Mathlib

/-!
Verification of `scripts/add_auxcodes.py` (wanxiang-dict).

The script has two core functions:

* `load_moqi(path)` — reads a tab-separated table and builds a first-wins
  mapping from character to auxiliary code;
* `process_chars(chars_path, moqi_map)` — rewrites dictionary lines,
  appending `;aux` to the pronunciation field of entry lines.

We embed both over `List Char` strings.  Python string primitives used by
the script (`split("\t")`, `"\t".join`, `strip()`, `rstrip("\n\r")`,
`startswith("#")`, `endswith("\n")`, `";" in s`) are modelled by the
`py`-prefixed functions below, each following CPython semantics on the
fragment the script exercises.
-/

namespace Wanxiang

/-- Strings are lists of unicode characters. -/
abbrev Str := List Char

/-- Python `s.split(sep)` for a one-character separator: always returns
`count sep s + 1` pieces, so `"".split(sep) == [""]`. -/
def pySplit (sep : Char) : Str → List Str
  | [] => [[]]
  | c :: cs =>
    if c = sep then [] :: pySplit sep cs
    else
      match pySplit sep cs with
      | [] => [[c]]
      | p :: ps => (c :: p) :: ps

/-- Python `sep.join(pieces)` for a one-character separator. -/
def pyJoin (sep : Char) : List Str → Str
  | [] => []
  | [p] => p
  | p :: q :: ps => p ++ sep :: pyJoin sep (q :: ps)

/-- The set of characters Python `str.strip()` removes (`str.isspace()`):
ASCII whitespace, the C1/formatting controls, and the Unicode space
separators. -/
def isPySpace (c : Char) : Bool :=
  c ∈ ([' ', '\t', '\n', '\r', '\x0b', '\x0c',
        '\x1c', '\x1d', '\x1e', '\x1f', '\x85', ' ',
        ' ', ' ', ' ', ' ', ' ', ' ',
        ' ', ' ', ' ', ' ', ' ', ' ',
        ' ', ' ', ' ', ' ', '　'] : List Char)

/-- Python `s.strip()`: drop leading and trailing whitespace. -/
def pyStrip (s : Str) : Str :=
  ((s.dropWhile isPySpace).reverse.dropWhile isPySpace).reverse

/-- Python `s.rstrip("\n\r")`: drop trailing newline / carriage-return
characters. -/
def rstripNL (s : Str) : Str :=
  (s.reverse.dropWhile (fun c => c = '\n' || c = '\r')).reverse

/-- Python `s.startswith(str(c))` for a one-character prefix. -/
def pyStarts (c : Char) : Str → Bool
  | [] => false
  | a :: _ => a = c

/-- The literal `"---"` recognised as a structural separator line. -/
def dashes : Str := ['-', '-', '-']

/-- An auxiliary-code map, written as an association list looked up
first-match (Python dicts have unique keys, which `load_moqi`
preserves, so first-match lookup coincides with dict lookup). -/
abbrev AuxMap := List (Str × Str)

/-- Python `m.get(k)` on the association list. -/
def lookupA : AuxMap → Str → Option Str
  | [], _ => none
  | (k, v) :: m, x => if k = x then some v else lookupA m x

/-- One iteration of the loader loop of `load_moqi`: strip trailing
newlines, skip blank and `#` lines, split on tab, require two fields,
and insert `(ch, aux)` only when both are non-empty and `ch` is not
already present (Python `if ch and aux and ch not in mapping`). -/
def loadLine (m : AuxMap) (ln : Str) : AuxMap :=
  let ln := rstripNL ln
  if ln = [] then m
  else if pyStarts '#' ln then m
  else
    let parts := pySplit '\t' ln
    if parts.length < 2 then m
    else
      let ch := parts.headI
      let aux := parts.tail.headI
      if ch ≠ [] ∧ aux ≠ [] ∧ lookupA m ch = none then m ++ [(ch, aux)] else m

/-- `load_moqi`: fold the loader loop over the file's lines, starting
from the empty mapping. -/
def load_moqi (lines : List Str) : AuxMap :=
  lines.foldl loadLine []

/-- The body of the `process_chars` loop for a single line:
pass structural lines through, and for entry lines with at least three
tab-separated fields append `;aux` to the pronunciation when a mapping
exists (Python truthiness: `if aux and ";" not in pinyin`), preserving
the trailing newline. -/
def processLine (m : AuxMap) (line : Str) : Str × Bool :=
  if pyStrip line = [] then (line, false)
  else if pyStarts '#' line = true ∨ pyStrip line = dashes then (line, false)
  else
    let parts := pySplit '\t' line
    if 3 ≤ parts.length then
      let ch := parts.headI
      let pinyin := parts.tail.headI
      let rest := pyJoin '\t' (parts.drop 2)
      match lookupA m ch with
      | none => (line, false)
      | some aux =>
        if aux ≠ [] ∧ ';' ∉ pinyin then
          let newPinyin := pinyin ++ ';' :: aux
          let newLine := pyJoin '\t' [ch, newPinyin, rest]
          let newLine :=
            if line.getLast? = some '\n' ∧ ¬ newLine.getLast? = some '\n'
            then newLine ++ ['\n'] else newLine
          (newLine, true)
        else (line, false)
    else (line, false)

/-- `process_chars` on an in-memory line sequence (the file read and
`splitlines(keepends=True)` are the I/O wrapper): map the loop body
over the lines in order, counting changed lines. -/
def process_chars : List Str → AuxMap → List Str × Nat
  | [], _ => ([], 0)
  | line :: rest, m =>
    let r := processLine m line
    let t := process_chars rest m
    (r.1 :: t.1, (if r.2 then 1 else 0) + t.2)

/-- A table row's contribution, ignoring key presence: `some (key, code)`
exactly when the row passes every per-row filter of the loader (non-blank
after `rstrip`, not a comment, at least two tab-separated fields, key and
code non-empty). -/
def auxRowKV (ln : Str) : Option (Str × Str) :=
  let ln := rstripNL ln
  if ln = [] then none
  else if pyStarts '#' ln then none
  else
    let parts := pySplit '\t' ln
    if parts.length < 2 then none
    else if parts.headI ≠ [] ∧ parts.tail.headI ≠ []
    then some (parts.headI, parts.tail.headI) else none

/-- The spec's first-wins description of the loaded mapping: the code of
the first qualifying row whose key is `ch`.  Stated independently of the
loader so that `load_moqi` can be proved to refine it. -/
def firstAux : List Str → Str → Option Str
  | [], _ => none
  | ln :: rest, ch =>
    match auxRowKV ln with
    | some kv => if kv.1 = ch then some kv.2 else firstAux rest ch
    | none => firstAux rest ch

/-- A field free of tab, newline and carriage-return characters. -/
def cleanField (s : Str) : Prop := '\t' ∉ s ∧ '\n' ∉ s ∧ '\r' ∉ s

/-- A line as produced by Python text-mode file iteration: newline and
carriage-return characters occur only in the trailing line terminator
(universal-newline decoding maps `\r` and `\r\n` to `\n`). -/
def textLine (ln : Str) : Prop := ∀ c ∈ rstripNL ln, c ≠ '\n' ∧ c ≠ '\r'

instance (s : Str) : Decidable (cleanField s) :=
  inferInstanceAs (Decidable ('\t' ∉ s ∧ '\n' ∉ s ∧ '\r' ∉ s))

instance (ln : Str) : Decidable (textLine ln) :=
  inferInstanceAs (Decidable (∀ c ∈ rstripNL ln, c ≠ '\n' ∧ c ≠ '\r'))

/-! ### Basic properties of the Python string primitives -/

theorem pySplit_ne_nil (sep : Char) (s : Str) : pySplit sep s ≠ [] := by
  cases s with
  | nil => simp [pySplit]
  | cons c cs =>
    simp only [pySplit]
    split
    · simp
    · split <;> simp

theorem pySplit_eq_cons (sep : Char) (s : Str) :
    pySplit sep s = (pySplit sep s).headI :: (pySplit sep s).tail := by
  cases hq : pySplit sep s with
  | nil => exact absurd hq (pySplit_ne_nil sep s)
  | cons q qs => simp

theorem pySplit_cons_sep (sep : Char) (cs : Str) :
    pySplit sep (sep :: cs) = [] :: pySplit sep cs := by
  simp [pySplit]

theorem pySplit_cons_ne {sep c : Char} (cs : Str) (h : ¬ c = sep) :
    pySplit sep (c :: cs) =
      (c :: (pySplit sep cs).headI) :: (pySplit sep cs).tail := by
  simp only [pySplit, if_neg h]
  cases hq : pySplit sep cs with
  | nil => exact absurd hq (pySplit_ne_nil sep cs)
  | cons q qs => simp

theorem pySplit_length (sep : Char) (s : Str) :
    (pySplit sep s).length = s.count sep + 1 := by
  induction s with
  | nil => simp [pySplit]
  | cons c cs ih =>
    by_cases h : c = sep
    · subst h
      rw [pySplit_cons_sep]
      simp only [List.length_cons, ih, List.count_cons]
      simp
    · rw [pySplit_cons_ne cs h]
      rw [pySplit_eq_cons sep cs] at ih
      simp only [List.length_cons] at ih ⊢
      rw [List.count_cons]
      have hne : ¬ (c == sep) = true := by simp [h]
      rw [if_neg hne]
      omega

theorem pyJoin_cons_cons (sep : Char) (p q : Str) (ps : List Str) :
    pyJoin sep (p :: q :: ps) = p ++ sep :: pyJoin sep (q :: ps) := rfl

theorem pyJoin_pySplit (sep : Char) (s : Str) :
    pyJoin sep (pySplit sep s) = s := by
  induction s with
  | nil => simp [pySplit, pyJoin]
  | cons c cs ih =>
    by_cases h : c = sep
    · subst h
      rw [pySplit_cons_sep, pySplit_eq_cons c cs, pyJoin_cons_cons,
        ← pySplit_eq_cons c cs, ih]
      simp
    · rw [pySplit_cons_ne cs h]
      rw [pySplit_eq_cons sep cs] at ih
      cases hq : (pySplit sep cs).tail with
      | nil =>
        rw [hq] at ih
        simp only [pyJoin] at ih ⊢
        simp [ih]
      | cons q qs =>
        rw [hq] at ih
        rw [pyJoin_cons_cons] at ih ⊢
        simp only [List.cons_append, ih]

theorem sep_not_mem_pySplit {sep : Char} {s : Str} :
    ∀ p ∈ pySplit sep s, sep ∉ p := by
  induction s with
  | nil =>
    intro p hp
    simp [pySplit] at hp
    simp [hp]
  | cons c cs ih =>
    intro p hp
    by_cases h : c = sep
    · subst h
      rw [pySplit_cons_sep] at hp
      rw [List.mem_cons] at hp
      rcases hp with hp | hp
      · simp [hp]
      · exact ih p hp
    · rw [pySplit_cons_ne cs h] at hp
      rw [List.mem_cons] at hp
      rcases hp with hp | hp
      · subst hp
        intro hmem
        rw [List.mem_cons] at hmem
        rcases hmem with hmem | hmem
        · exact h hmem.symm
        · refine ih (pySplit sep cs).headI ?_ hmem
          rw [pySplit_eq_cons sep cs]
          exact List.mem_cons_self _ _
      · refine ih p ?_
        rw [pySplit_eq_cons sep cs]
        exact List.mem_cons_of_mem _ hp

theorem mem_of_mem_pySplit {sep c : Char} {s : Str} :
    ∀ p ∈ pySplit sep s, c ∈ p → c ∈ s := by
  induction s with
  | nil =>
    intro p hp hc
    simp [pySplit] at hp
    subst hp
    simp at hc
  | cons a cs ih =>
    intro p hp hc
    by_cases h : a = sep
    · subst h
      rw [pySplit_cons_sep] at hp
      rw [List.mem_cons] at hp
      rcases hp with hp | hp
      · subst hp; simp at hc
      · exact List.mem_cons_of_mem a (ih p hp hc)
    · rw [pySplit_cons_ne cs h] at hp
      rw [List.mem_cons] at hp
      rcases hp with hp | hp
      · subst hp
        rw [List.mem_cons] at hc
        rcases hc with hc | hc
        · subst hc; exact List.mem_cons_self c cs
        · refine List.mem_cons_of_mem a (ih (pySplit sep cs).headI ?_ hc)
          rw [pySplit_eq_cons sep cs]
          exact List.mem_cons_self _ _
      · refine List.mem_cons_of_mem a (ih p ?_ hc)
        rw [pySplit_eq_cons sep cs]
        exact List.mem_cons_of_mem _ hp

theorem pySplit_append_sepFree {sep : Char} {a : Str} (b : Str)
    (ha : sep ∉ a) :
    pySplit sep (a ++ b) = (a ++ (pySplit sep b).headI) :: (pySplit sep b).tail := by
  induction a with
  | nil =>
    simpa using pySplit_eq_cons sep b
  | cons c a ih =>
    have hc : ¬ c = sep := fun h => ha (h ▸ List.mem_cons_self c a)
    have ha' : sep ∉ a := fun h => ha (List.mem_cons_of_mem c h)
    rw [List.cons_append, pySplit_cons_ne (a ++ b) hc, ih ha']
    simp

theorem pySplit_append_sep {sep : Char} {a : Str} (b : Str) (ha : sep ∉ a) :
    pySplit sep (a ++ sep :: b) = a :: pySplit sep b := by
  rw [pySplit_append_sepFree (sep :: b) ha, pySplit_cons_sep]
  simp

theorem pySplit_pyJoin {sep : Char} :
    ∀ l : List Str, l ≠ [] → (∀ p ∈ l, sep ∉ p) →
      pySplit sep (pyJoin sep l) = l := by
  intro l
  induction l with
  | nil => intro h; exact absurd rfl h
  | cons p ps ih =>
    intro _ hall
    have hp : sep ∉ p := hall p (List.mem_cons_self p ps)
    cases ps with
    | nil =>
      have := pySplit_append_sepFree [] hp
      simpa [pyJoin, pySplit] using this
    | cons q qs =>
      have ihq := ih (by simp)
        (fun r hr => hall r (List.mem_cons_of_mem p hr))
      rw [pyJoin_cons_cons, pySplit_append_sep _ hp, ihq]

/-! ### Association-list lookup lemmas -/

theorem lookupA_append_of_some {m : AuxMap} {x w : Str} (m2 : AuxMap)
    (h : lookupA m x = some w) : lookupA (m ++ m2) x = some w := by
  induction m with
  | nil => simp [lookupA] at h
  | cons kv m ih =>
    obtain ⟨k, v⟩ := kv
    simp only [lookupA, List.cons_append] at h ⊢
    by_cases hk : k = x
    · rw [if_pos hk] at h ⊢; exact h
    · rw [if_neg hk] at h ⊢; exact ih h

theorem lookupA_append_of_none {m : AuxMap} {x : Str} (m2 : AuxMap)
    (h : lookupA m x = none) : lookupA (m ++ m2) x = lookupA m2 x := by
  induction m with
  | nil => simp [lookupA]
  | cons kv m ih =>
    obtain ⟨k, v⟩ := kv
    simp only [lookupA, List.cons_append] at h ⊢
    by_cases hk : k = x
    · rw [if_pos hk] at h; exact absurd h (by simp)
    · rw [if_neg hk] at h ⊢; exact ih h

theorem lookupA_mem {m : AuxMap} {x v : Str} (h : lookupA m x = some v) :
    (x, v) ∈ m := by
  induction m with
  | nil => simp [lookupA] at h
  | cons kv m ih =>
    obtain ⟨k, w⟩ := kv
    simp only [lookupA] at h
    by_cases hk : k = x
    · rw [if_pos hk] at h
      subst hk
      injection h with h
      subst h
      exact List.mem_cons_self _ _
    · rw [if_neg hk] at h
      exact List.mem_cons_of_mem _ (ih h)

/-! ### `strip` lemmas -/

theorem mem_dropWhile_of_not {p : Char → Bool} {c : Char} :
    ∀ {l : Str}, c ∈ l → p c = false → c ∈ l.dropWhile p := by
  intro l
  induction l with
  | nil => intro h; simp at h
  | cons a t ih =>
    intro h hc
    rw [List.mem_cons] at h
    by_cases ha : p a
    · rw [List.dropWhile_cons_of_pos ha]
      rcases h with h | h
      · subst h; rw [hc] at ha; exact absurd ha (by simp)
      · exact ih h hc
    · rw [List.dropWhile_cons_of_neg ha]
      rw [List.mem_cons]
      exact h

theorem mem_pyStrip {c : Char} {s : Str} (h : c ∈ s)
    (hc : isPySpace c = false) : c ∈ pyStrip s := by
  unfold pyStrip
  rw [List.mem_reverse]
  refine mem_dropWhile_of_not ?_ hc
  rw [List.mem_reverse]
  exact mem_dropWhile_of_not h hc

theorem pyStrip_ne_nil_of_semi {s : Str} (h : ';' ∈ s) : pyStrip s ≠ [] := by
  intro he
  have := mem_pyStrip h (by decide)
  rw [he] at this
  simp at this

theorem pyStrip_ne_dashes_of_semi {s : Str} (h : ';' ∈ s) :
    pyStrip s ≠ dashes := by
  intro he
  have := mem_pyStrip h (by decide)
  rw [he] at this
  simp [dashes] at this

/-! ### Decomposition of entry lines -/

theorem pyJoin_triple (sep : Char) (a b c : Str) :
    pyJoin sep [a, b, c] = a ++ sep :: (b ++ sep :: c) := rfl

theorem getLast?_append_char (a : Str) (c : Char) (rest : Str) :
    (a ++ c :: rest).getLast? = if rest = [] then some c else rest.getLast? := by
  cases rest with
  | nil => simp [List.getLast?_concat]
  | cons r rs =>
    rw [if_neg (by simp)]
    have h1 : a ++ c :: r :: rs = (a ++ [c]) ++ r :: rs := by simp
    rw [h1, List.getLast?_append_of_ne_nil _ (by simp)]

theorem getLast?_entry (a b r : Str) (sep : Char) :
    (a ++ sep :: (b ++ sep :: r)).getLast? =
      if r = [] then some sep else r.getLast? := by
  rw [getLast?_append_char, if_neg (by simp), getLast?_append_char]

theorem line_decomp {sep : Char} {s : Str}
    (h : 3 ≤ (pySplit sep s).length) :
    s = (pySplit sep s).headI ++ sep :: ((pySplit sep s).tail.headI ++
        sep :: pyJoin sep ((pySplit sep s).drop 2)) := by
  have hj := pyJoin_pySplit sep s
  rcases hq : pySplit sep s with _ | ⟨p0, _ | ⟨p1, _ | ⟨p2, ps⟩⟩⟩
  · rw [hq] at h; simp at h
  · rw [hq] at h; simp at h
  · rw [hq] at h; simp at h
  · rw [hq] at hj
    rw [pyJoin_cons_cons, pyJoin_cons_cons] at hj
    simp only [List.headI, List.tail_cons, List.drop]
    exact hj.symm

theorem transform_keeps_trailing {line : Str}
    (hlen : 3 ≤ (pySplit '\t' line).length) (X : Str) :
    ¬ (line.getLast? = some '\n' ∧
       ¬ ((pySplit '\t' line).headI ++ '\t' :: (X ++
          '\t' :: pyJoin '\t' ((pySplit '\t' line).drop 2))).getLast? = some '\n') := by
  intro hc
  obtain ⟨hend, hnew⟩ := hc
  rw [line_decomp hlen, getLast?_entry] at hend
  rw [getLast?_entry] at hnew
  by_cases hR : pyJoin '\t' ((pySplit '\t' line).drop 2) = []
  · rw [if_pos hR] at hend
    exact absurd hend (by simp)
  · rw [if_neg hR] at hend
    rw [if_neg hR] at hnew
    exact hnew hend

/-! ### Branch characterisation of `processLine` -/

theorem pyStarts_false_or {line : Str} (h2 : pyStarts '#' line = false)
    (h3 : pyStrip line ≠ dashes) :
    ¬ (pyStarts '#' line = true ∨ pyStrip line = dashes) := by
  intro hc
  rcases hc with hc | hc
  · rw [h2] at hc; exact Bool.false_ne_true hc
  · exact h3 hc

theorem processLine_transform {m : AuxMap} {line aux : Str}
    (h1 : pyStrip line ≠ [])
    (h2 : pyStarts '#' line = false)
    (h3 : pyStrip line ≠ dashes)
    (hlen : 3 ≤ (pySplit '\t' line).length)
    (hlook : lookupA m (pySplit '\t' line).headI = some aux)
    (haux : aux ≠ [])
    (hsemi : ';' ∉ (pySplit '\t' line).tail.headI) :
    processLine m line =
      ((pySplit '\t' line).headI ++ '\t' ::
        (((pySplit '\t' line).tail.headI ++ ';' :: aux) ++ '\t' ::
         pyJoin '\t' ((pySplit '\t' line).drop 2)), true) := by
  simp only [processLine, if_neg h1, if_neg (pyStarts_false_or h2 h3),
    if_pos hlen, hlook]
  rw [if_pos ⟨haux, hsemi⟩, pyJoin_triple,
    if_neg (transform_keeps_trailing hlen _)]

theorem processLine_spec (m : AuxMap) (line : Str) :
    processLine m line = (line, false) ∨
    (∃ aux : Str,
      pyStrip line ≠ [] ∧ pyStarts '#' line = false ∧ pyStrip line ≠ dashes ∧
      3 ≤ (pySplit '\t' line).length ∧
      lookupA m (pySplit '\t' line).headI = some aux ∧ aux ≠ [] ∧
      ';' ∉ (pySplit '\t' line).tail.headI ∧
      processLine m line =
        ((pySplit '\t' line).headI ++ '\t' ::
          (((pySplit '\t' line).tail.headI ++ ';' :: aux) ++ '\t' ::
           pyJoin '\t' ((pySplit '\t' line).drop 2)), true)) := by
  by_cases h1 : pyStrip line = []
  · exact Or.inl (by simp only [processLine, if_pos h1])
  by_cases h2 : pyStarts '#' line = true ∨ pyStrip line = dashes
  · exact Or.inl (by simp only [processLine, if_neg h1, if_pos h2])
  by_cases hlen : 3 ≤ (pySplit '\t' line).length
  · cases hlook : lookupA m (pySplit '\t' line).headI with
    | none =>
      refine Or.inl ?_
      simp only [processLine, if_neg h1, if_neg h2, if_pos hlen, hlook]
    | some aux =>
      by_cases hg : aux ≠ [] ∧ ';' ∉ (pySplit '\t' line).tail.headI
      · have h2a : pyStarts '#' line = false := by
          cases hb : pyStarts '#' line
          · rfl
          · exact absurd (Or.inl hb) h2
        have h2b : pyStrip line ≠ dashes := fun hc => h2 (Or.inr hc)
        exact Or.inr ⟨aux, h1, h2a, h2b, hlen, rfl, hg.1, hg.2,
          processLine_transform h1 h2a h2b hlen hlook hg.1 hg.2⟩
      · refine Or.inl ?_
        simp only [processLine, if_neg h1, if_neg h2, if_pos hlen, hlook,
          if_neg hg]
  · exact Or.inl (by simp only [processLine, if_neg h1, if_neg h2, if_neg hlen])

theorem processLine_structural {line : Str} (m : AuxMap)
    (h : pyStrip line = [] ∨ pyStarts '#' line = true ∨ pyStrip line = dashes) :
    processLine m line = (line, false) := by
  by_cases h1 : pyStrip line = []
  · simp only [processLine, if_pos h1]
  · have h2 : pyStarts '#' line = true ∨ pyStrip line = dashes := by
      rcases h with h | h
      · exact absurd h h1
      · exact h
    simp only [processLine, if_neg h1, if_pos h2]

theorem processLine_short {line : Str} (m : AuxMap)
    (h : (pySplit '\t' line).length < 3) :
    processLine m line = (line, false) := by
  by_cases h1 : pyStrip line = []
  · simp only [processLine, if_pos h1]
  by_cases h2 : pyStarts '#' line = true ∨ pyStrip line = dashes
  · simp only [processLine, if_neg h1, if_pos h2]
  · simp only [processLine, if_neg h1, if_neg h2,
      if_neg (by omega : ¬ 3 ≤ (pySplit '\t' line).length)]

theorem processLine_semi {line : Str} (m : AuxMap)
    (hlen : 3 ≤ (pySplit '\t' line).length)
    (hsemi : ';' ∈ (pySplit '\t' line).tail.headI) :
    processLine m line = (line, false) := by
  by_cases h1 : pyStrip line = []
  · simp only [processLine, if_pos h1]
  by_cases h2 : pyStarts '#' line = true ∨ pyStrip line = dashes
  · simp only [processLine, if_neg h1, if_pos h2]
  cases hlook : lookupA m (pySplit '\t' line).headI with
  | none =>
    simp only [processLine, if_neg h1, if_neg h2, if_pos hlen, hlook]
  | some aux =>
    have hg : ¬ (aux ≠ [] ∧ ';' ∉ (pySplit '\t' line).tail.headI) := by
      intro hc
      exact hc.2 hsemi
    simp only [processLine, if_neg h1, if_neg h2, if_pos hlen, hlook, if_neg hg]

theorem processLine_flag_false {m : AuxMap} {line : Str}
    (h : (processLine m line).2 = false) :
    processLine m line = (line, false) := by
  rcases processLine_spec m line with hs | ⟨aux, _, _, _, _, _, _, _, hs⟩
  · exact hs
  · rw [hs] at h
    simp at h

theorem processLine_changed_ne {m : AuxMap} {line : Str}
    (h : (processLine m line).2 = true) :
    (processLine m line).1 ≠ line := by
  rcases processLine_spec m line with hs | ⟨aux, h1, h2a, h2b, hlen, hlook, haux, hsemi, hs⟩
  · rw [hs] at h; simp at h
  · intro heq
    rw [hs] at heq
    have hlenEq := congrArg List.length heq
    have hL := congrArg List.length (line_decomp hlen)
    simp only [List.length_append, List.length_cons] at hlenEq hL
    have haux' : 1 ≤ aux.length := by
      cases aux with
      | nil => exact absurd rfl haux
      | cons a t => simp
    omega

theorem processLine_ext {m m2 : AuxMap} (h : ∀ k, lookupA m k = lookupA m2 k)
    (line : Str) : processLine m line = processLine m2 line := by
  simp only [processLine, h]

/-! ### A second pass never changes a transformed line -/

theorem processLine_idem (m : AuxMap) (line : Str) :
    processLine m (processLine m line).1 = ((processLine m line).1, false) := by
  rcases processLine_spec m line with hs |
    ⟨aux, h1, h2a, h2b, hlen, hlook, haux, hsemi, hs⟩
  · rw [hs]; exact hs
  · have hp0mem : (pySplit '\t' line).headI ∈ pySplit '\t' line := by
      rw [pySplit_eq_cons '\t' line]
      exact List.mem_cons_self _ _
    have hp1mem : (pySplit '\t' line).tail.headI ∈ pySplit '\t' line := by
      rcases hq : pySplit '\t' line with _ | ⟨a, _ | ⟨b, t⟩⟩
      · exact absurd hq (pySplit_ne_nil _ _)
      · rw [hq] at hlen; simp at hlen
      · simp
    have htab0 : '\t' ∉ (pySplit '\t' line).headI :=
      sep_not_mem_pySplit _ hp0mem
    have htab1 : '\t' ∉ (pySplit '\t' line).tail.headI :=
      sep_not_mem_pySplit _ hp1mem
    have htabsemi : '\t' ∉ (pySplit '\t' line).tail.headI ++ [';'] := by
      intro hmem
      rcases List.mem_append.mp hmem with h | h
      · exact htab1 h
      · simp at h
    have hfst : (processLine m line).1 =
        (pySplit '\t' line).headI ++ '\t' ::
          (((pySplit '\t' line).tail.headI ++ ';' :: aux) ++ '\t' ::
           pyJoin '\t' ((pySplit '\t' line).drop 2)) := by rw [hs]
    rw [hfst]
    have hassoc : ((pySplit '\t' line).tail.headI ++ ';' :: aux) ++ '\t' ::
        pyJoin '\t' ((pySplit '\t' line).drop 2) =
        ((pySplit '\t' line).tail.headI ++ [';']) ++
          (aux ++ '\t' :: pyJoin '\t' ((pySplit '\t' line).drop 2)) := by
      simp
    have hsplitN : pySplit '\t' ((pySplit '\t' line).headI ++ '\t' ::
        (((pySplit '\t' line).tail.headI ++ ';' :: aux) ++ '\t' ::
         pyJoin '\t' ((pySplit '\t' line).drop 2))) =
        (pySplit '\t' line).headI ::
          (((pySplit '\t' line).tail.headI ++ [';']) ++
            (pySplit '\t' (aux ++ '\t' ::
              pyJoin '\t' ((pySplit '\t' line).drop 2))).headI) ::
          (pySplit '\t' (aux ++ '\t' ::
            pyJoin '\t' ((pySplit '\t' line).drop 2))).tail := by
      rw [pySplit_append_sep _ htab0, hassoc,
        pySplit_append_sepFree _ htabsemi]
    have hlen2 : 2 ≤ (pySplit '\t' (aux ++ '\t' ::
        pyJoin '\t' ((pySplit '\t' line).drop 2))).length := by
      rw [pySplit_length]
      have hmem : '\t' ∈ aux ++ '\t' :: pyJoin '\t' ((pySplit '\t' line).drop 2) :=
        List.mem_append_right _ (List.mem_cons_self _ _)
      have := List.count_pos_iff.mpr hmem
      omega
    refine processLine_semi m ?_ ?_
    · rw [hsplitN]
      simp only [List.length_cons]
      rw [pySplit_eq_cons '\t' (aux ++ '\t' ::
        pyJoin '\t' ((pySplit '\t' line).drop 2))] at hlen2
      simp only [List.length_cons] at hlen2
      omega
    · rw [hsplitN]
      simp only [List.tail_cons, List.headI]
      exact List.mem_append_left _ (List.mem_append_right _ (by simp))

/-! ### `process_chars` as map + count -/

theorem process_chars_eq (L : List Str) (m : AuxMap) :
    process_chars L m =
      (L.map (fun l => (processLine m l).1),
       L.countP (fun l => (processLine m l).2)) := by
  induction L with
  | nil => rfl
  | cons l t ih =>
    simp only [process_chars, ih, List.map_cons, List.countP_cons]
    rw [Prod.mk.injEq]
    refine ⟨rfl, ?_⟩
    by_cases hf : (processLine m l).2 <;> simp [hf, Nat.add_comm]

/-! ### Loader lemmas -/

theorem loadLine_rowKV_none {ln : Str} (m : AuxMap)
    (h : auxRowKV ln = none) : loadLine m ln = m := by
  simp only [auxRowKV] at h
  simp only [loadLine]
  by_cases e1 : rstripNL ln = []
  · rw [if_pos e1]
  rw [if_neg e1] at h ⊢
  by_cases e2 : pyStarts '#' (rstripNL ln) = true
  · rw [if_pos e2]
  rw [if_neg e2] at h ⊢
  by_cases e3 : (pySplit '\t' (rstripNL ln)).length < 2
  · rw [if_pos e3]
  rw [if_neg e3] at h ⊢
  by_cases e4 : (pySplit '\t' (rstripNL ln)).headI ≠ [] ∧
      (pySplit '\t' (rstripNL ln)).tail.headI ≠ []
  · rw [if_pos e4] at h
    cases h
  · rw [if_neg (fun hc => e4 ⟨hc.1, hc.2.1⟩)]

theorem loadLine_rowKV_some {ln k v : Str} (m : AuxMap)
    (h : auxRowKV ln = some (k, v)) :
    loadLine m ln = if lookupA m k = none then m ++ [(k, v)] else m := by
  simp only [auxRowKV] at h
  simp only [loadLine]
  by_cases e1 : rstripNL ln = []
  · rw [if_pos e1] at h; cases h
  rw [if_neg e1] at h ⊢
  by_cases e2 : pyStarts '#' (rstripNL ln) = true
  · rw [if_pos e2] at h; cases h
  rw [if_neg e2] at h ⊢
  by_cases e3 : (pySplit '\t' (rstripNL ln)).length < 2
  · rw [if_pos e3] at h; cases h
  rw [if_neg e3] at h ⊢
  by_cases e4 : (pySplit '\t' (rstripNL ln)).headI ≠ [] ∧
      (pySplit '\t' (rstripNL ln)).tail.headI ≠ []
  · rw [if_pos e4] at h
    injection h with h
    rw [Prod.mk.injEq] at h
    obtain ⟨hk, hv⟩ := h
    subst hk
    subst hv
    by_cases e5 : lookupA m (pySplit '\t' (rstripNL ln)).headI = none
    · rw [if_pos ⟨e4.1, e4.2, e5⟩, if_pos e5]
    · rw [if_neg (fun hc => e5 hc.2.2), if_neg e5]
  · rw [if_neg e4] at h
    cases h

theorem loadLine_shape (m : AuxMap) (ln : Str) :
    loadLine m ln = m ∨
    (2 ≤ (pySplit '\t' (rstripNL ln)).length ∧
     (pySplit '\t' (rstripNL ln)).headI ≠ [] ∧
     (pySplit '\t' (rstripNL ln)).tail.headI ≠ [] ∧
     loadLine m ln = m ++ [((pySplit '\t' (rstripNL ln)).headI,
                           (pySplit '\t' (rstripNL ln)).tail.headI)]) := by
  simp only [loadLine]
  by_cases e1 : rstripNL ln = []
  · left; rw [if_pos e1]
  rw [if_neg e1]
  by_cases e2 : pyStarts '#' (rstripNL ln) = true
  · left; rw [if_pos e2]
  rw [if_neg e2]
  by_cases e3 : (pySplit '\t' (rstripNL ln)).length < 2
  · left; rw [if_pos e3]
  rw [if_neg e3]
  by_cases e4 : (pySplit '\t' (rstripNL ln)).headI ≠ [] ∧
      (pySplit '\t' (rstripNL ln)).tail.headI ≠ [] ∧
      lookupA m (pySplit '\t' (rstripNL ln)).headI = none
  · right
    exact ⟨by omega, e4.1, e4.2.1, by rw [if_pos e4]⟩
  · left; rw [if_neg e4]

theorem lookupA_foldl_some {lines : List Str} {m : AuxMap} {ch v : Str}
    (h : lookupA m ch = some v) :
    lookupA (lines.foldl loadLine m) ch = some v := by
  induction lines generalizing m with
  | nil => exact h
  | cons ln rest ih =>
    rw [List.foldl_cons]
    refine ih ?_
    cases hr : auxRowKV ln with
    | none => rw [loadLine_rowKV_none m hr]; exact h
    | some kv =>
      obtain ⟨k, w⟩ := kv
      rw [loadLine_rowKV_some m hr]
      by_cases e : lookupA m k = none
      · rw [if_pos e]
        exact lookupA_append_of_some _ h
      · rw [if_neg e]; exact h

theorem lookupA_foldl_none {lines : List Str} {m : AuxMap} {ch : Str}
    (h : lookupA m ch = none) :
    lookupA (lines.foldl loadLine m) ch = firstAux lines ch := by
  induction lines generalizing m with
  | nil => exact h
  | cons ln rest ih =>
    rw [List.foldl_cons]
    cases hr : auxRowKV ln with
    | none =>
      rw [loadLine_rowKV_none m hr]
      simp only [firstAux, hr]
      exact ih h
    | some kv =>
      obtain ⟨k, w⟩ := kv
      rw [loadLine_rowKV_some m hr]
      simp only [firstAux, hr]
      by_cases hk : k = ch
      · subst hk
        rw [if_pos h, if_pos rfl]
        refine lookupA_foldl_some ?_
        rw [lookupA_append_of_none _ h]
        simp [lookupA]
      · rw [if_neg hk]
        by_cases e : lookupA m k = none
        · rw [if_pos e]
          refine ih ?_
          rw [lookupA_append_of_none _ h]
          simp [lookupA, hk]
        · rw [if_neg e]; exact ih h

/-! ### Field well-formedness of the loaded map -/

theorem foldl_loadLine_fields :
    ∀ (lines : List Str) (m : AuxMap),
    (∀ ln ∈ lines, textLine ln) →
    (∀ kv ∈ m, kv.1 ≠ [] ∧ kv.2 ≠ [] ∧ cleanField kv.1 ∧ cleanField kv.2) →
    ∀ kv ∈ lines.foldl loadLine m,
      kv.1 ≠ [] ∧ kv.2 ≠ [] ∧ cleanField kv.1 ∧ cleanField kv.2 := by
  intro lines
  induction lines with
  | nil => intro m _ hm kv hkv; exact hm kv hkv
  | cons ln rest ih =>
    intro m hlines hm kv hkv
    rw [List.foldl_cons] at hkv
    refine ih (loadLine m ln)
      (fun l hl => hlines l (List.mem_cons_of_mem _ hl)) ?_ kv hkv
    rcases loadLine_shape m ln with he | ⟨hlen2, hk, hv, he⟩
    · rw [he]; exact hm
    · rw [he]
      intro kv' hkv'
      rcases List.mem_append.mp hkv' with hkv' | hkv'
      · exact hm kv' hkv'
      · rw [List.mem_singleton] at hkv'
        subst hkv'
        have htext := hlines ln (List.mem_cons_self _ _)
        have hmem0 : (pySplit '\t' (rstripNL ln)).headI ∈
            pySplit '\t' (rstripNL ln) := by
          rw [pySplit_eq_cons]
          exact List.mem_cons_self _ _
        have hmem1 : (pySplit '\t' (rstripNL ln)).tail.headI ∈
            pySplit '\t' (rstripNL ln) := by
          rcases hq : pySplit '\t' (rstripNL ln) with _ | ⟨a, _ | ⟨b, t⟩⟩
          · exact absurd hq (pySplit_ne_nil _ _)
          · rw [hq] at hlen2; simp at hlen2
          · simp
        refine ⟨hk, hv, ⟨sep_not_mem_pySplit _ hmem0, ?_, ?_⟩,
          ⟨sep_not_mem_pySplit _ hmem1, ?_, ?_⟩⟩
        · intro hmem
          exact (htext '\n' (mem_of_mem_pySplit _ hmem0 hmem)).1 rfl
        · intro hmem
          exact (htext '\r' (mem_of_mem_pySplit _ hmem0 hmem)).2 rfl
        · intro hmem
          exact (htext '\n' (mem_of_mem_pySplit _ hmem1 hmem)).1 rfl
        · intro hmem
          exact (htext '\r' (mem_of_mem_pySplit _ hmem1 hmem)).2 rfl

/-! ### A modified line keeps its field count -/

theorem processLine_changed_fieldcount {m : AuxMap} {line : Str}
    (hmv : ∀ kv ∈ m, '\t' ∉ kv.2)
    (h : (processLine m line).2 = true) :
    (pySplit '\t' (processLine m line).1).length =
      (pySplit '\t' line).length := by
  rcases processLine_spec m line with hs |
    ⟨aux, h1, h2a, h2b, hlen, hlook, haux, hsemi, hs⟩
  · rw [hs] at h; simp at h
  · have htabaux : '\t' ∉ aux := hmv _ (lookupA_mem hlook)
    rcases hq : pySplit '\t' line with _ | ⟨p0, _ | ⟨p1, _ | ⟨p2, ps⟩⟩⟩
    · exact absurd hq (pySplit_ne_nil _ _)
    · rw [hq] at hlen; simp at hlen
    · rw [hq] at hlen; simp at hlen
    · have hfst : (processLine m line).1 =
          p0 ++ '\t' :: ((p1 ++ ';' :: aux) ++ '\t' :: pyJoin '\t' (p2 :: ps)) := by
        rw [hs, hq]; rfl
      have htab0 : '\t' ∉ p0 :=
        sep_not_mem_pySplit p0 (by rw [hq]; exact List.mem_cons_self _ _)
      have htab1 : '\t' ∉ p1 :=
        sep_not_mem_pySplit p1 (by rw [hq]; simp)
      have htabnew : '\t' ∉ p1 ++ ';' :: aux := by
        intro hmem
        rcases List.mem_append.mp hmem with hh | hh
        · exact htab1 hh
        · rcases List.mem_cons.mp hh with hh | hh
          · exact absurd hh (by decide)
          · exact htabaux hh
      have hmemrest : ∀ p ∈ p2 :: ps, p ∈ pySplit '\t' line := by
        intro p hp
        rw [hq]
        simp [hp]
      have hrest : ∀ p ∈ p2 :: ps, '\t' ∉ p :=
        fun p hp => sep_not_mem_pySplit p (hmemrest p hp)
      rw [hfst]
      rw [pySplit_append_sep _ htab0]
      rw [pySplit_append_sep _ htabnew]
      rw [pySplit_pyJoin (p2 :: ps) (by simp) hrest]
      simp

theorem processLine_flag_eq_decide (m : AuxMap) (l : Str) :
    (processLine m l).2 = decide ((processLine m l).1 ≠ l) := by
  cases hf : (processLine m l).2
  · have h1 : (processLine m l).1 = l := by
      rw [processLine_flag_false hf]
    simp [h1]
  · simp [processLine_changed_ne hf]

/-! ### The claims -/

/-- Claim C1, counterexample: the all-whitespace line `" \t\t\n"` has three
tab-separated fields, its first field `" "` can carry a mapping (the loader
accepts the row `" \tX"`), and its second field has no `;`, yet the merger
passes it through unchanged (the blank-line check fires first) instead of
producing the output the claim demands. -/
theorem C1_counterexample :
    3 ≤ (pySplit '\t' [' ', '\t', '\t', '\n']).length ∧
    lookupA [([' '], ['X'])] (pySplit '\t' [' ', '\t', '\t', '\n']).headI =
      some ['X'] ∧
    ';' ∉ (pySplit '\t' [' ', '\t', '\t', '\n']).tail.headI ∧
    loadLine [] [' ', '\t', 'X', '\n'] = [([' '], ['X'])] ∧
    processLine [([' '], ['X'])] [' ', '\t', '\t', '\n'] =
      ([' ', '\t', '\t', '\n'], false) ∧
    [' ', '\t', '\t', '\n'] ≠
      (pySplit '\t' [' ', '\t', '\t', '\n']).headI ++ '\t' ::
        (((pySplit '\t' [' ', '\t', '\t', '\n']).tail.headI ++ ';' :: ['X']) ++
         '\t' :: pyJoin '\t' ((pySplit '\t' [' ', '\t', '\t', '\n']).drop 2)) := by
  decide

/-- Claim C1 (amended): for every non-structural input line (non-blank
after stripping, not `#`-prefixed, not `---` after stripping) splitting
into at least 3 tab-separated fields, where field 0 has an entry with a
non-empty code in the aux map and field 1 contains no `;`, the output line
is field0 + TAB + field1 + `;` + code + TAB + the remaining fields rejoined
with tab — all fields other than field 1 byte-identical to the input, the
trailing newline preserved — and the line is counted as changed. -/
theorem C1_entry_transform {m : AuxMap} {line aux : Str}
    (h1 : pyStrip line ≠ [])
    (h2 : pyStarts '#' line = false)
    (h3 : pyStrip line ≠ dashes)
    (hlen : 3 ≤ (pySplit '\t' line).length)
    (hlook : lookupA m (pySplit '\t' line).headI = some aux)
    (haux : aux ≠ [])
    (hsemi : ';' ∉ (pySplit '\t' line).tail.headI) :
    processLine m line =
      ((pySplit '\t' line).headI ++ '\t' ::
        (((pySplit '\t' line).tail.headI ++ ';' :: aux) ++ '\t' ::
         pyJoin '\t' ((pySplit '\t' line).drop 2)), true) ∧
    (line.getLast? = some '\n' →
      (processLine m line).1.getLast? = some '\n') := by
  have ht := processLine_transform h1 h2 h3 hlen hlook haux hsemi
  refine ⟨ht, ?_⟩
  intro hend
  rw [ht]
  by_contra hc
  exact transform_keeps_trailing hlen
    ((pySplit '\t' line).tail.headI ++ ';' :: aux) ⟨hend, hc⟩

/-- Claim C1, witness: the mapped entry line `"Z\tp\t1\n"` under the map
`Z ↦ ab` becomes `"Z\tp;ab\t1\n"` and is counted. -/
theorem C1_witness :
    processLine [(['Z'], ['a', 'b'])] ['Z', '\t', 'p', '\t', '1', '\n'] =
      ((pySplit '\t' ['Z', '\t', 'p', '\t', '1', '\n']).headI ++ '\t' ::
        (((pySplit '\t' ['Z', '\t', 'p', '\t', '1', '\n']).tail.headI ++
          ';' :: ['a', 'b']) ++ '\t' ::
         pyJoin '\t' ((pySplit '\t' ['Z', '\t', 'p', '\t', '1', '\n']).drop 2)),
       true) ∧
    (['Z', '\t', 'p', '\t', '1', '\n'].getLast? = some '\n' →
      (processLine [(['Z'], ['a', 'b'])]
        ['Z', '\t', 'p', '\t', '1', '\n']).1.getLast? = some '\n') :=
  C1_entry_transform (by decide) (by decide) (by decide) (by decide)
    (by decide) (by decide) (by decide)

/-- Claim C2: the merge is idempotent — a second pass over the output of a
first pass returns the same lines with a changed count of zero, for every
line sequence and aux map. -/
theorem C2_idempotent (L : List Str) (m : AuxMap) :
    process_chars (process_chars L m).1 m = ((process_chars L m).1, 0) := by
  have hmap : (process_chars L m).1 = L.map (fun l => (processLine m l).1) := by
    rw [process_chars_eq]
  rw [hmap, process_chars_eq, Prod.mk.injEq]
  constructor
  · rw [List.map_map]
    refine List.map_congr_left ?_
    intro a _
    show (processLine m (processLine m a).1).1 = (processLine m a).1
    rw [processLine_idem]
  · rw [List.countP_eq_zero]
    intro l' hl'
    obtain ⟨a, _, rfl⟩ := List.mem_map.mp hl'
    show ¬ (processLine m (processLine m a).1).2 = true
    rw [processLine_idem]
    simp

/-- Claim C3: a line with at least 3 tab-separated fields whose second
field already contains `;` is passed through byte-identical with no count,
for any aux map (in particular whether or not field 0 is mapped). -/
theorem C3_semicolon_passthrough (m : AuxMap) (line : Str)
    (hlen : 3 ≤ (pySplit '\t' line).length)
    (hsemi : ';' ∈ (pySplit '\t' line).tail.headI) :
    processLine m line = (line, false) :=
  processLine_semi m hlen hsemi

/-- Claim C3, witness: `"a\tp;q\t1\n"` is unchanged even though `a` is
mapped. -/
theorem C3_witness :
    processLine [(['a'], ['X'])] ['a', '\t', 'p', ';', 'q', '\t', '1', '\n'] =
      (['a', '\t', 'p', ';', 'q', '\t', '1', '\n'], false) :=
  C3_semicolon_passthrough _ _ (by decide) (by decide)

/-- Claim C4: structural lines — blank after stripping, `#`-prefixed, or
`---` after stripping — are passed through byte-identical with no count,
for any aux map. -/
theorem C4_structural_passthrough (m : AuxMap) (line : Str)
    (h : pyStrip line = [] ∨ pyStarts '#' line = true ∨ pyStrip line = dashes) :
    processLine m line = (line, false) :=
  processLine_structural m h

/-- Claim C4, witness: the comment line `"# c\n"` is unchanged. -/
theorem C4_witness :
    processLine [(['#'], ['X'])] ['#', ' ', 'c', '\n'] =
      (['#', ' ', 'c', '\n'], false) :=
  C4_structural_passthrough _ _ (Or.inr (Or.inl (by decide)))

/-- Claim C5: the output has exactly as many lines as the input and its
i-th line is the per-line transform of the i-th input line — no
reordering, insertion, deletion, or deduplication. -/
theorem C5_line_count (L : List Str) (m : AuxMap) :
    (process_chars L m).1 = L.map (fun l => (processLine m l).1) ∧
    (process_chars L m).1.length = L.length := by
  have h1 : (process_chars L m).1 = L.map (fun l => (processLine m l).1) := by
    rw [process_chars_eq]
  exact ⟨h1, by rw [h1]; simp⟩

/-- Claim C6: the loaded mapping has first-wins semantics — looking up any
character in `load_moqi`'s result returns the code of the first row whose
key is that character among rows that are non-blank, non-comment, have at
least two tab-separated fields, and have non-empty key and code; all other
rows, and later duplicates, contribute nothing. -/
theorem C6_first_wins (lines : List Str) (ch : Str) :
    lookupA (load_moqi lines) ch = firstAux lines ch :=
  lookupA_foldl_none rfl

/-- Claim C7: both core functions are total by construction, and malformed
input degrades gracefully — the merger either passes a line through
unchanged or counts it as transformed, a line with fewer than 3 fields is
always passed through, and a loader step either leaves the map unchanged
or appends exactly one entry. -/
theorem C7_total_passthrough (m : AuxMap) (ln : Str) :
    (processLine m ln = (ln, false) ∨ (processLine m ln).2 = true) ∧
    ((pySplit '\t' ln).length < 3 → processLine m ln = (ln, false)) ∧
    (loadLine m ln = m ∨ ∃ kv, loadLine m ln = m ++ [kv]) := by
  refine ⟨?_, fun h => processLine_short m h, ?_⟩
  · rcases processLine_spec m ln with hs | ⟨aux, _, _, _, _, _, _, _, hs⟩
    · exact Or.inl hs
    · right; rw [hs]
  · rcases loadLine_shape m ln with he | ⟨_, _, _, he⟩
    · exact Or.inl he
    · exact Or.inr ⟨_, he⟩

/-- Claim C7, witness: the two-field-free line `"ab"` is passed through. -/
theorem C7_witness :
    processLine [] ['a', 'b'] = (['a', 'b'], false) :=
  (C7_total_passthrough [] ['a', 'b']).2.1 (by decide)

/-- Claim C8: the merger reads the aux map only through lookup — two maps
that agree on every lookup give identical merge results, and the map value
itself is never modified (the embedding is pure). -/
theorem C8_map_readonly (L : List Str) (m m2 : AuxMap)
    (h : ∀ k, lookupA m k = lookupA m2 k) :
    process_chars L m = process_chars L m2 := by
  induction L with
  | nil => rfl
  | cons l t ih =>
    simp only [process_chars, ih, processLine_ext h]

/-- Claim C8, witness: a map with a shadowed duplicate entry merges
identically to its deduplicated form. -/
theorem C8_witness :
    process_chars [['a', '\t', 'b', '\t', 'c', '\n']]
        [(['a'], ['X']), (['a'], ['Y'])] =
      process_chars [['a', '\t', 'b', '\t', 'c', '\n']] [(['a'], ['X'])] :=
  C8_map_readonly _ _ _ (fun k => by
    by_cases hk : ['a'] = k
    · simp [lookupA, hk]
    · simp [lookupA, hk])

/-- Claim C9: when the loader's input lines carry newline characters only
as trailing terminators (as Python text-mode iteration guarantees), every
key and code in the loaded map is non-empty and free of tab, newline and
carriage-return characters; consequently every line the merger modifies
under that map splits into exactly as many tab-separated fields as the
original. -/
theorem C9_fields_wellformed (lines : List Str) (line : Str)
    (h : ∀ ln ∈ lines, textLine ln) :
    (∀ kv ∈ load_moqi lines,
      kv.1 ≠ [] ∧ kv.2 ≠ [] ∧ cleanField kv.1 ∧ cleanField kv.2) ∧
    ((processLine (load_moqi lines) line).2 = true →
      (pySplit '\t' (processLine (load_moqi lines) line).1).length =
        (pySplit '\t' line).length) := by
  have hfields := foldl_loadLine_fields lines [] h (by intro kv hkv; simp at hkv)
  refine ⟨hfields, ?_⟩
  intro hchg
  refine processLine_changed_fieldcount ?_ hchg
  intro kv hkv
  exact (hfields kv hkv).2.2.2.1

/-- Claim C9, witness: loading the row `"甲\tA"` and transforming
`"甲\tp\t1\n"` keeps the field count at 3. -/
theorem C9_witness :
    (∀ kv ∈ load_moqi [['甲', '\t', 'A']],
      kv.1 ≠ [] ∧ kv.2 ≠ [] ∧ cleanField kv.1 ∧ cleanField kv.2) ∧
    ((processLine (load_moqi [['甲', '\t', 'A']])
        ['甲', '\t', 'p', '\t', '1', '\n']).2 = true →
      (pySplit '\t' (processLine (load_moqi [['甲', '\t', 'A']])
        ['甲', '\t', 'p', '\t', '1', '\n']).1).length =
        (pySplit '\t' ['甲', '\t', 'p', '\t', '1', '\n']).length) :=
  C9_fields_wellformed _ _ (by decide)

/-- Claim C10: the changed count equals the number of positions where the
output line differs from the corresponding input line, and a zero count
means the output equals the input. -/
theorem C10_changed_count (L : List Str) (m : AuxMap) :
    (process_chars L m).2 =
      ((process_chars L m).1.zip L).countP (fun p => decide (p.1 ≠ p.2)) ∧
    ((process_chars L m).2 = 0 → (process_chars L m).1 = L) := by
  induction L with
  | nil => exact ⟨rfl, fun _ => rfl⟩
  | cons l t ih =>
    simp only [process_chars]
    constructor
    · rw [List.zip_cons_cons, List.countP_cons, ← ih.1,
        processLine_flag_eq_decide]
      simp [Nat.add_comm]
    · intro h0
      have hf : (processLine m l).2 = false := by
        cases hfc : (processLine m l).2
        · rfl
        · rw [hfc] at h0; simp at h0
      have hps : (process_chars t m).2 = 0 := by
        rw [hf] at h0
        simpa using h0
      have h1 : (processLine m l).1 = l := by
        rw [processLine_flag_false hf]
      rw [h1, ih.2 hps]

/-- Claim C10, witness: a pass with zero changes returns the input lines
unchanged. -/
theorem C10_witness :
    (process_chars [['#', 'x', '\n']] []).1 = [['#', 'x', '\n']] :=
  (C10_changed_count [['#', 'x', '\n']] []).2 (by decide)

end Wanxiang
